import Mathlib

/-!
Verification of the SmoothLife GPU cellular automaton (copilot-smoothlife).

The definitions below are a shallow embedding, in real-number semantics, of
the fragment shader and host code in `src/main.ts` (and the variant files):
the per-cell rule (`kernelNext` and its sub-expressions), the two-disk seed
(`seedValue`, `createInitialStateTexture`), and the ping-pong render loop
(`render`).  A state surface is modelled as a sampling function
`ℝ → ℝ → ℝ` from normalized coordinates to the red-channel value, which is
how the shader accesses the texture (`texture2D(u_state, st).r`).
-/

/-- Rule constants of the fragment shader.  `main.ts` hard-codes
`R1 = 1.0, R2 = 4.0, B1 = 0.23, B2 = 0.336, D1 = 0.477, D2 = 0.5`; a variant
shader in the repository uses `R2 = 5.0, B1 = 0.22, B2 = 0.33, D1 = 0.47,
D2 = 0.49`.  Both observed `R2` values are whole numbers, and `R2` doubles as
the integer loop bound of the neighbourhood scan, so it is stored as a `ℕ`
and cast to `ℝ` where the shader compares distances against it. -/
structure Params where
  R1 : ℝ
  R2 : ℕ
  B1 : ℝ
  B2 : ℝ
  D1 : ℝ
  D2 : ℝ

/-- Parameter set of `src/main.ts` (lines 40-45). -/
noncomputable def mainParams : Params :=
  ⟨1, 4, 0.23, 0.336, 0.477, 0.5⟩

/-- Parameter set of the variant shader (`part_003` lines 7-12). -/
noncomputable def altParams : Params :=
  ⟨1, 5, 0.22, 0.33, 0.47, 0.49⟩

/-- GLSL `smoothstep(edge0, edge1, x)`: clamp `t = (x-edge0)/(edge1-edge0)`
to `[0,1]`, return `t*t*(3-2*t)`. -/
noncomputable def smoothstep (edge0 edge1 x : ℝ) : ℝ :=
  (min (max ((x - edge0) / (edge1 - edge0)) 0) 1) *
    (min (max ((x - edge0) / (edge1 - edge0)) 0) 1) *
    (3 - 2 * min (max ((x - edge0) / (edge1 - edge0)) 0) 1)

/-- The shader's `smoothstepRange` helper (main.ts lines 47-49) simply
forwards to `smoothstep`. -/
noncomputable def smoothstepRange (edge0 edge1 x : ℝ) : ℝ :=
  smoothstep edge0 edge1 x

/-- GLSL `mix(x, y, a) = x*(1-a) + y*a`. -/
noncomputable def glslMix (x y a : ℝ) : ℝ :=
  x * (1 - a) + y * a

/-- The shader's `weightFactor` constant (main.ts line 63). -/
noncomputable def weightFactor : ℝ := 10

/-- The loop accumulator of the neighbourhood scan: the four mutable shader
variables `innerState, innerWeight, outerState, outerWeight`
(main.ts lines 58-61), all initialized to `0.0`. -/
structure RingAcc where
  innerState : ℝ
  innerWeight : ℝ
  outerState : ℝ
  outerWeight : ℝ

/-- The values taken by one loop variable of
`for (float x = -R2; x <= R2; x += 1.0)`: the integers `-n, ..., n` in
ascending order. -/
def offsetRange (n : ℕ) : List ℤ :=
  (List.range (2 * n + 1)).map (fun i => (i : ℤ) - (n : ℤ))

/-- The integer offsets `(dx, dy)` visited by the nested neighbourhood loop
(main.ts lines 64-65): `dx` in the outer loop, `dy` in the inner loop. -/
def offsets (n : ℕ) : List (ℤ × ℤ) :=
  (offsetRange n).flatMap (fun dx => (offsetRange n).map (fun dy => (dx, dy)))

/-- Normalized length of the offset `(dx, dy) / (W, H)`
(main.ts lines 66-67: `vec2 offset = vec2(x, y) / u_resolution;
float d = length(offset);`). -/
noncomputable def offsetDist (W H : ℝ) (o : ℤ × ℤ) : ℝ :=
  Real.sqrt (((o.1 : ℝ) / W) ^ 2 + ((o.2 : ℝ) / H) ^ 2)

/-- One iteration of the nested neighbourhood loop body
(main.ts lines 66-79): classify the offset by its normalized distance and
accumulate `sample * weight` and `weight` (with `weight = exp(-d * 10.0)`)
into the inner ring if `d <= R1`, else into the outer ring if `d <= R2`,
else leave the accumulator unchanged. -/
noncomputable def loopStep (p : Params) (W H : ℝ) (S : ℝ → ℝ → ℝ) (sx sy : ℝ)
    (acc : RingAcc) (o : ℤ × ℤ) : RingAcc :=
  if offsetDist W H o ≤ p.R1 then
    ⟨acc.innerState +
        S (sx + (o.1 : ℝ) / W) (sy + (o.2 : ℝ) / H) *
          Real.exp (-offsetDist W H o * weightFactor),
      acc.innerWeight + Real.exp (-offsetDist W H o * weightFactor),
      acc.outerState, acc.outerWeight⟩
  else if offsetDist W H o ≤ (p.R2 : ℝ) then
    ⟨acc.innerState, acc.innerWeight,
      acc.outerState +
        S (sx + (o.1 : ℝ) / W) (sy + (o.2 : ℝ) / H) *
          Real.exp (-offsetDist W H o * weightFactor),
      acc.outerWeight + Real.exp (-offsetDist W H o * weightFactor)⟩
  else acc

/-- The full neighbourhood scan (main.ts lines 58-81): fold the loop body
over all offsets starting from the all-zero accumulator. -/
noncomputable def kernelAcc (p : Params) (W H : ℝ) (S : ℝ → ℝ → ℝ)
    (sx sy : ℝ) : RingAcc :=
  (offsets p.R2).foldl (loopStep p W H S sx sy) ⟨0, 0, 0, 0⟩

/-- Normalized inner average (main.ts line 82):
`if (innerWeight > 0.0) { innerState /= innerWeight; }` — on the zero-weight
branch `innerState` keeps its accumulated value. -/
noncomputable def innerStateNorm (p : Params) (W H : ℝ) (S : ℝ → ℝ → ℝ)
    (sx sy : ℝ) : ℝ :=
  if (kernelAcc p W H S sx sy).innerWeight > 0 then
    (kernelAcc p W H S sx sy).innerState / (kernelAcc p W H S sx sy).innerWeight
  else (kernelAcc p W H S sx sy).innerState

/-- Normalized outer average (main.ts line 83). -/
noncomputable def outerStateNorm (p : Params) (W H : ℝ) (S : ℝ → ℝ → ℝ)
    (sx sy : ℝ) : ℝ :=
  if (kernelAcc p W H S sx sy).outerWeight > 0 then
    (kernelAcc p W H S sx sy).outerState / (kernelAcc p W H S sx sy).outerWeight
  else (kernelAcc p W H S sx sy).outerState

/-- Equal-weight mix of the two ring averages (main.ts line 85):
`float neighborState = mix(innerState, outerState, 0.5);`. -/
noncomputable def neighborState (p : Params) (W H : ℝ) (S : ℝ → ℝ → ℝ)
    (sx sy : ℝ) : ℝ :=
  glslMix (innerStateNorm p W H S sx sy) (outerStateNorm p W H S sx sy) 0.5

/-- The per-cell rule of the fragment shader (main.ts lines 51-94): the next
value written for the cell at normalized coordinate `(sx, sy)` given the
input surface `S`, resolution `(W, H)`, and elapsed time `u_time`.  The
shader declares the `u_time` uniform (line 37) but its body never reads it,
which the definition mirrors by ignoring the argument. -/
noncomputable def kernelNext (p : Params) (W H : ℝ) (S : ℝ → ℝ → ℝ)
    (_u_time sx sy : ℝ) : ℝ :=
  S sx sy * (1 - smoothstepRange p.D1 p.D2 (neighborState p W H S sx sy)) +
    (1 - S sx sy) * smoothstepRange p.B1 p.B2 (neighborState p W H S sx sy)

/-- One full-surface kernel pass: what one `drawArrays` invocation of the
SmoothLife program computes at every cell of the target. -/
noncomputable def stepGrid (p : Params) (W H : ℝ) (u_time : ℝ)
    (S : ℝ → ℝ → ℝ) : ℝ → ℝ → ℝ :=
  fun sx sy => kernelNext p W H S u_time sx sy

/-- Generation `n` of the simulation started from seed surface `S0`, with
`times k` the `u_time` value supplied at tick `k`. -/
noncomputable def generation (p : Params) (W H : ℝ) (times : ℕ → ℝ)
    (S0 : ℝ → ℝ → ℝ) : ℕ → (ℝ → ℝ → ℝ)
  | 0 => S0
  | n + 1 => stepGrid p W H (times n) (generation p W H times S0 n)

/-- The mutable state of the render loop (main.ts lines 221-263): the
contents of the two ping-pong textures (as the JS variables `readTexture`
and `writeTexture` refer to them), the surface currently bound to texture
unit 0, and the surface shown on the default framebuffer. -/
structure RenderState where
  readTex : ℝ → ℝ → ℝ
  writeTex : ℝ → ℝ → ℝ
  bound : ℝ → ℝ → ℝ
  screen : ℝ → ℝ → ℝ

/-- One call of `render` (main.ts lines 241-265): bind the framebuffer to
`writeTexture`, bind `readTexture` to texture unit 0, draw (writing the
kernel of the bound surface into `writeTexture`), swap the two JS texture
variables, then bind the default framebuffer and draw again.  The texture
binding is not touched between the two draws, so the screen draw still
samples the pre-swap read surface. -/
noncomputable def render (p : Params) (W H : ℝ) (u_time : ℝ)
    (s : RenderState) : RenderState :=
  { readTex := stepGrid p W H u_time s.readTex
    writeTex := s.readTex
    bound := s.readTex
    screen := stepGrid p W H u_time s.readTex }

/-- C7: immediately after a tick's swap, the surface presented to the
display equals the newly written generation: inside `render` the screen
draw re-evaluates the kernel against the generation-N surface that is still
bound as input, producing exactly the grid the framebuffer pass just wrote
into what is now `readTexture`; hence generation N+1 is shown with no frame
of latency. -/
theorem C7_present_new_generation (p : Params) (W H u_time : ℝ)
    (s : RenderState) :
    (render p W H u_time s).screen = (render p W H u_time s).readTex ∧
    (render p W H u_time s).screen = stepGrid p W H u_time s.readTex ∧
    (render p W H u_time s).bound = s.readTex :=
  ⟨rfl, rfl, rfl⟩

/-- C8: the elapsed-time uniform is passed into the kernel but does not
influence the rule's result: for every parameter set, input surface,
resolution and coordinate, the kernel output at time `t1` equals the output
at time `t2`. -/
theorem C8_time_independent (p : Params) (W H : ℝ) (S : ℝ → ℝ → ℝ)
    (t1 t2 sx sy : ℝ) :
    kernelNext p W H S t1 sx sy = kernelNext p W H S t2 sx sy :=
  rfl

/-- GLSL smoothstep always lands in `[0, 1]`: the clamped parameter `t` lies
in `[0, 1]` and the cubic `t*t*(3-2t)` maps `[0, 1]` into itself. -/
lemma smoothstep_mem (edge0 edge1 x : ℝ) :
    0 ≤ smoothstep edge0 edge1 x ∧ smoothstep edge0 edge1 x ≤ 1 := by
  unfold smoothstep
  set t := min (max ((x - edge0) / (edge1 - edge0)) 0) 1 with ht
  have h0 : 0 ≤ t := le_min (le_max_right _ 0) zero_le_one
  have h1 : t ≤ 1 := min_le_right _ 1
  constructor
  · nlinarith
  · nlinarith [sq_nonneg (1 - t)]

/-- C1: for every cell value `current` in `[0,1]` and every input surface
with values in `[0,1]`, the kernel output
`next = current*(1-death) + (1-current)*birth` lies in `[0,1]` (birth and
death are smoothstep values in `[0,1]`, so `next` is bounded by convexity);
hence, by induction, every cell of every generation reachable from a seed
grid with values in `[0,1]` stays in `[0,1]`. -/
theorem C1_range_invariant (p : Params) (W H : ℝ) (times : ℕ → ℝ)
    (S0 : ℝ → ℝ → ℝ) (hS0 : ∀ x y, 0 ≤ S0 x y ∧ S0 x y ≤ 1) :
    (∀ S : ℝ → ℝ → ℝ, (∀ x y, 0 ≤ S x y ∧ S x y ≤ 1) →
        ∀ t x y, 0 ≤ kernelNext p W H S t x y ∧ kernelNext p W H S t x y ≤ 1) ∧
    (∀ n x y, 0 ≤ generation p W H times S0 n x y ∧
        generation p W H times S0 n x y ≤ 1) := by
  have hker : ∀ S : ℝ → ℝ → ℝ, (∀ x y, 0 ≤ S x y ∧ S x y ≤ 1) →
      ∀ t x y, 0 ≤ kernelNext p W H S t x y ∧ kernelNext p W H S t x y ≤ 1 := by
    intro S hS t x y
    have hc := hS x y
    have hb := smoothstep_mem p.B1 p.B2 (neighborState p W H S x y)
    have hd := smoothstep_mem p.D1 p.D2 (neighborState p W H S x y)
    have hk : kernelNext p W H S t x y =
        S x y * (1 - smoothstep p.D1 p.D2 (neighborState p W H S x y)) +
          (1 - S x y) * smoothstep p.B1 p.B2 (neighborState p W H S x y) := rfl
    rw [hk]
    constructor <;> nlinarith [hc.1, hc.2, hb.1, hb.2, hd.1, hd.2]
  refine ⟨hker, ?_⟩
  intro n
  induction n with
  | zero => exact hS0
  | succ n ih =>
    intro x y
    have hstep : generation p W H times S0 (n + 1) x y =
        kernelNext p W H (generation p W H times S0 n) (times n) x y := rfl
    rw [hstep]
    exact hker _ ih (times n) x y

/-- Witness for C1 at the all-zero 10x10 seed, generation 3, cell (0,0). -/
theorem C1_range_invariant_witness :
    (∀ x y : ℝ, 0 ≤ (fun _ _ : ℝ => (0 : ℝ)) x y ∧
        (fun _ _ : ℝ => (0 : ℝ)) x y ≤ 1) ∧
    0 ≤ generation mainParams 10 10 (fun _ => 0) (fun _ _ => 0) 3 0 0 := by
  have hS0 : ∀ x y : ℝ, 0 ≤ (fun _ _ : ℝ => (0 : ℝ)) x y ∧
      (fun _ _ : ℝ => (0 : ℝ)) x y ≤ 1 := fun _ _ => ⟨le_refl 0, zero_le_one⟩
  exact ⟨hS0,
    ((C1_range_invariant mainParams 10 10 (fun _ => 0) (fun _ _ => 0) hS0).2 3 0 0).1⟩

/-- Folding a step function that preserves a predicate preserves it. -/
lemma foldl_preserves {α : Type} (f : RingAcc → α → RingAcc) (P : RingAcc → Prop) :
    ∀ l : List α, (∀ acc o, o ∈ l → P acc → P (f acc o)) →
      ∀ acc, P acc → P (l.foldl f acc) := by
  intro l
  induction l with
  | nil => intro _ acc h; exact h
  | cons o t ih =>
    intro hf acc h
    exact ih (fun a o' ho' ha => hf a o' (List.mem_cons_of_mem _ ho') ha) _
      (hf acc o (List.mem_cons_self _ _) h)

/-- One loop iteration keeps both ring weights nonnegative and keeps the
weighted sums zero whenever the corresponding weight is zero (each branch
adds a strictly positive `exp` weight together with its sample term). -/
lemma loopStep_weight_inv (p : Params) (W H : ℝ) (S : ℝ → ℝ → ℝ) (sx sy : ℝ)
    (acc : RingAcc) (o : ℤ × ℤ)
    (h : 0 ≤ acc.innerWeight ∧ (acc.innerWeight = 0 → acc.innerState = 0) ∧
      0 ≤ acc.outerWeight ∧ (acc.outerWeight = 0 → acc.outerState = 0)) :
    0 ≤ (loopStep p W H S sx sy acc o).innerWeight ∧
      ((loopStep p W H S sx sy acc o).innerWeight = 0 →
        (loopStep p W H S sx sy acc o).innerState = 0) ∧
      0 ≤ (loopStep p W H S sx sy acc o).outerWeight ∧
      ((loopStep p W H S sx sy acc o).outerWeight = 0 →
        (loopStep p W H S sx sy acc o).outerState = 0) := by
  have hw := Real.exp_pos (-offsetDist W H o * weightFactor)
  unfold loopStep
  split_ifs
  · dsimp only
    exact ⟨by linarith [h.1], fun hz => absurd hz (by linarith [h.1]),
      h.2.2.1, h.2.2.2⟩
  · dsimp only
    exact ⟨h.1, h.2.1, by linarith [h.2.2.1],
      fun hz => absurd hz (by linarith [h.2.2.1])⟩
  · exact h

/-- The neighbourhood scan always ends with nonnegative ring weights, and a
zero weight forces the matching weighted sum to be zero as well. -/
lemma kernelAcc_weight_inv (p : Params) (W H : ℝ) (S : ℝ → ℝ → ℝ)
    (sx sy : ℝ) :
    0 ≤ (kernelAcc p W H S sx sy).innerWeight ∧
      ((kernelAcc p W H S sx sy).innerWeight = 0 →
        (kernelAcc p W H S sx sy).innerState = 0) ∧
      0 ≤ (kernelAcc p W H S sx sy).outerWeight ∧
      ((kernelAcc p W H S sx sy).outerWeight = 0 →
        (kernelAcc p W H S sx sy).outerState = 0) :=
  foldl_preserves (loopStep p W H S sx sy)
    (fun acc => 0 ≤ acc.innerWeight ∧ (acc.innerWeight = 0 → acc.innerState = 0) ∧
      0 ≤ acc.outerWeight ∧ (acc.outerWeight = 0 → acc.outerState = 0))
    (offsets p.R2)
    (fun acc o _ h => loopStep_weight_inv p W H S sx sy acc o h)
    ⟨0, 0, 0, 0⟩ ⟨le_refl 0, fun _ => rfl, le_refl 0, fun _ => rfl⟩

/-- C9: in the normalization step, division only happens under the
`weight > 0` guard, and the guarded conditional agrees with the
specification's ternary `weight > 0 ? sum/weight : 0`: when a ring's weight
is zero its accumulated sum is zero too, so the unnormalized fallback value
is exactly 0 and an empty ring never causes a division by zero, for every
parameter set, input surface and coordinate. -/
theorem C9_zero_weight_guard (p : Params) (W H : ℝ) (S : ℝ → ℝ → ℝ)
    (sx sy : ℝ) :
    0 ≤ (kernelAcc p W H S sx sy).innerWeight ∧
    0 ≤ (kernelAcc p W H S sx sy).outerWeight ∧
    innerStateNorm p W H S sx sy =
      (if 0 < (kernelAcc p W H S sx sy).innerWeight then
        (kernelAcc p W H S sx sy).innerState /
          (kernelAcc p W H S sx sy).innerWeight
      else 0) ∧
    outerStateNorm p W H S sx sy =
      (if 0 < (kernelAcc p W H S sx sy).outerWeight then
        (kernelAcc p W H S sx sy).outerState /
          (kernelAcc p W H S sx sy).outerWeight
      else 0) := by
  have h := kernelAcc_weight_inv p W H S sx sy
  refine ⟨h.1, h.2.2.1, ?_, ?_⟩
  · unfold innerStateNorm
    split_ifs with hpos
    · rfl
    · exact h.2.1 (le_antisymm (not_lt.mp hpos) h.1)
  · unfold outerStateNorm
    split_ifs with hpos
    · rfl
    · exact h.2.2.2 (le_antisymm (not_lt.mp hpos) h.2.2.1)

/-- Scanning the all-zero surface leaves both weighted sums at zero: every
accumulated sample is `0 * weight`. -/
lemma kernelAcc_zero_states (p : Params) (W H sx sy : ℝ) :
    (kernelAcc p W H (fun _ _ => 0) sx sy).innerState = 0 ∧
    (kernelAcc p W H (fun _ _ => 0) sx sy).outerState = 0 := by
  refine foldl_preserves (loopStep p W H (fun _ _ => 0) sx sy)
    (fun acc => acc.innerState = 0 ∧ acc.outerState = 0) (offsets p.R2)
    ?_ _ ⟨rfl, rfl⟩
  intro acc o _ h
  unfold loopStep
  split_ifs <;> exact ⟨by simp [h.1], by simp [h.2]⟩

/-- On the all-zero surface both normalized ring averages are zero. -/
lemma stateNorm_zero (p : Params) (W H sx sy : ℝ) :
    innerStateNorm p W H (fun _ _ => 0) sx sy = 0 ∧
    outerStateNorm p W H (fun _ _ => 0) sx sy = 0 := by
  have h := kernelAcc_zero_states p W H sx sy
  constructor
  · unfold innerStateNorm
    rw [h.1]
    split_ifs with hw
    · exact zero_div _
    · rfl
  · unfold outerStateNorm
    rw [h.2]
    split_ifs with hw
    · exact zero_div _
    · rfl

/-- Smoothstep vanishes at or below the lower edge. -/
lemma smoothstep_of_le {edge0 edge1 x : ℝ} (hx : x ≤ edge0)
    (he : edge0 < edge1) : smoothstep edge0 edge1 x = 0 := by
  unfold smoothstep
  have ht : (x - edge0) / (edge1 - edge0) ≤ 0 :=
    div_nonpos_of_nonpos_of_nonneg (by linarith) (by linarith)
  rw [max_eq_right ht, min_eq_left (by norm_num : (0:ℝ) ≤ 1)]
  ring

/-- Smoothstep is one at or above the upper edge. -/
lemma smoothstep_of_ge {edge0 edge1 x : ℝ} (hx : edge1 ≤ x)
    (he : edge0 < edge1) : smoothstep edge0 edge1 x = 1 := by
  unfold smoothstep
  have h1 : (1 : ℝ) ≤ (x - edge0) / (edge1 - edge0) :=
    (one_le_div (by linarith)).mpr (by linarith)
  rw [max_eq_left (le_trans zero_le_one h1), min_eq_right h1]
  ring

/-- C5: on a 10x10 grid whose cells are all 0.0, one application of the
kernel yields 0.0 at every cell: all neighbourhood samples are zero, so
`neighborState = 0`, `birth = smoothstep(B1, B2, 0) = 0` since `0 < B1`,
and the death term multiplies the zero current value. -/
theorem C5_all_dead_fixed_point (t sx sy : ℝ) :
    kernelNext mainParams 10 10 (fun _ _ => 0) t sx sy = 0 := by
  have h := stateNorm_zero mainParams 10 10 sx sy
  have hn : neighborState mainParams 10 10 (fun _ _ => 0) sx sy = 0 := by
    unfold neighborState glslMix
    rw [h.1, h.2]
    ring
  have hb : smoothstepRange mainParams.B1 mainParams.B2
      (neighborState mainParams 10 10 (fun _ _ => 0) sx sy) = 0 := by
    rw [hn]
    unfold smoothstepRange
    exact smoothstep_of_le (by norm_num [mainParams]) (by norm_num [mainParams])
  simp only [kernelNext]
  rw [hb]
  ring

/-- C2: for every integer offset visited by the neighbourhood loop, the loop
body accumulates its weighted sample into the inner sums with weight
`exp(-d * 10.0)` exactly when `d <= R1`, into the outer sums with the same
weight exactly when `R1 < d <= R2`, and leaves the accumulator untouched
exactly when `R2 < d`; the three conditions are mutually exclusive and cover
all distances, so no offset with `d <= R2` is double-counted or dropped. -/
theorem C2_ring_partition (p : Params) (W H : ℝ) (S : ℝ → ℝ → ℝ) (sx sy : ℝ)
    (acc : RingAcc) (o : ℤ × ℤ) (hR : p.R1 ≤ (p.R2 : ℝ))
    (_ho : o ∈ offsets p.R2) :
    (loopStep p W H S sx sy acc o =
        ⟨acc.innerState +
            S (sx + (o.1 : ℝ) / W) (sy + (o.2 : ℝ) / H) *
              Real.exp (-offsetDist W H o * weightFactor),
          acc.innerWeight + Real.exp (-offsetDist W H o * weightFactor),
          acc.outerState, acc.outerWeight⟩ ↔
      offsetDist W H o ≤ p.R1) ∧
    (loopStep p W H S sx sy acc o =
        ⟨acc.innerState, acc.innerWeight,
          acc.outerState +
            S (sx + (o.1 : ℝ) / W) (sy + (o.2 : ℝ) / H) *
              Real.exp (-offsetDist W H o * weightFactor),
          acc.outerWeight + Real.exp (-offsetDist W H o * weightFactor)⟩ ↔
      (p.R1 < offsetDist W H o ∧ offsetDist W H o ≤ (p.R2 : ℝ))) ∧
    (loopStep p W H S sx sy acc o = acc ↔ (p.R2 : ℝ) < offsetDist W H o) := by
  have hw : 0 < Real.exp (-offsetDist W H o * weightFactor) :=
    Real.exp_pos _
  unfold loopStep
  split_ifs with h1 h2
  · refine ⟨⟨fun _ => h1, fun _ => rfl⟩, ?_, ?_⟩
    · constructor
      · intro heq
        have h' : acc.innerWeight + Real.exp (-offsetDist W H o * weightFactor) =
            acc.innerWeight := congrArg RingAcc.innerWeight heq
        exact absurd h' (by linarith)
      · intro hcon
        exact absurd h1 (not_le.mpr hcon.1)
    · constructor
      · intro heq
        have h' : acc.innerWeight + Real.exp (-offsetDist W H o * weightFactor) =
            acc.innerWeight := congrArg RingAcc.innerWeight heq
        exact absurd h' (by linarith)
      · intro hcon
        exact absurd hcon (not_lt.mpr (le_trans h1 hR))
  · refine ⟨?_, ⟨fun _ => ⟨not_le.mp h1, h2⟩, fun _ => rfl⟩, ?_⟩
    · constructor
      · intro heq
        have h' : acc.outerWeight + Real.exp (-offsetDist W H o * weightFactor) =
            acc.outerWeight := congrArg RingAcc.outerWeight heq
        exact absurd h' (by linarith)
      · intro hcon
        exact absurd hcon h1
    · constructor
      · intro heq
        have h' : acc.outerWeight + Real.exp (-offsetDist W H o * weightFactor) =
            acc.outerWeight := congrArg RingAcc.outerWeight heq
        exact absurd h' (by linarith)
      · intro hcon
        exact absurd h2 (not_le.mpr hcon)
  · refine ⟨?_, ?_, ⟨fun _ => not_le.mp h2, fun _ => rfl⟩⟩
    · constructor
      · intro heq
        have h' : acc.innerWeight =
            acc.innerWeight + Real.exp (-offsetDist W H o * weightFactor) :=
          congrArg RingAcc.innerWeight heq
        exact absurd h' (by linarith)
      · intro hcon
        exact absurd hcon h1
    · constructor
      · intro heq
        have h' : acc.outerWeight =
            acc.outerWeight + Real.exp (-offsetDist W H o * weightFactor) :=
          congrArg RingAcc.outerWeight heq
        exact absurd h' (by linarith)
      · intro hcon
        exact absurd hcon.2 h2

/-- Witness for C2 at the parameter set of main.ts, resolution 800x600,
the all-zero surface, zero accumulator and offset (0, 0). -/
theorem C2_ring_partition_witness :
    mainParams.R1 ≤ (mainParams.R2 : ℝ) ∧
    ((0, 0) : ℤ × ℤ) ∈ offsets mainParams.R2 ∧
    (loopStep mainParams 800 600 (fun _ _ => 0) 0 0 ⟨0, 0, 0, 0⟩ (0, 0) =
        ⟨0 + (0 : ℝ) * Real.exp (-offsetDist 800 600 (0, 0) * weightFactor),
          0 + Real.exp (-offsetDist 800 600 (0, 0) * weightFactor),
          0, 0⟩ ↔
      offsetDist 800 600 (0, 0) ≤ mainParams.R1) := by
  have h1 : mainParams.R1 ≤ (mainParams.R2 : ℝ) := by norm_num [mainParams]
  have h2 : ((0, 0) : ℤ × ℤ) ∈ offsets mainParams.R2 := by decide
  exact ⟨h1, h2,
    (C2_ring_partition mainParams 800 600 (fun _ _ => 0) 0 0 ⟨0, 0, 0, 0⟩
      (0, 0) h1 h2).1⟩

/-- Every offset of the R2 = 4 scan has both components in [-4, 4]. -/
lemma offsets_four_bounds :
    ∀ o ∈ offsets 4, -4 ≤ o.1 ∧ o.1 ≤ 4 ∧ -4 ≤ o.2 ∧ o.2 ≤ 4 := by decide

/-- With `min(W, H) ≥ 6` every offset of the R2 = 4 scan keeps its
normalized distance at most `sqrt(32)/min(W, H)`, and that bound is
strictly below 1. -/
lemma offsetDist_bound_of_min6 (W H : ℝ) (hmin : 6 ≤ min W H) :
    (∀ o ∈ offsets 4, offsetDist W H o ≤ Real.sqrt 32 / min W H) ∧
    Real.sqrt 32 / min W H < 1 := by
  have hW : (6 : ℝ) ≤ W := le_trans hmin (min_le_left W H)
  have hH : (6 : ℝ) ≤ H := le_trans hmin (min_le_right W H)
  have hm0 : (0 : ℝ) < min W H := lt_of_lt_of_le (by norm_num) hmin
  have hW0 : (0 : ℝ) < W := by linarith
  have hH0 : (0 : ℝ) < H := by linarith
  constructor
  · intro o ho
    obtain ⟨hb1, hb2, hb3, hb4⟩ := offsets_four_bounds o ho
    have ha1 : |(o.1 : ℝ)| ≤ 4 := by
      rw [abs_le]
      exact ⟨by exact_mod_cast hb1, by exact_mod_cast hb2⟩
    have ha2 : |(o.2 : ℝ)| ≤ 4 := by
      rw [abs_le]
      exact ⟨by exact_mod_cast hb3, by exact_mod_cast hb4⟩
    have hq1 : ((o.1 : ℝ) / W) ^ 2 ≤ (4 / min W H) ^ 2 := by
      have habs : |(o.1 : ℝ)| / W ≤ 4 / min W H :=
        le_trans ((div_le_div_iff_of_pos_right hW0).mpr ha1)
          (div_le_div_of_nonneg_left (by norm_num) hm0 (min_le_left W H))
      calc ((o.1 : ℝ) / W) ^ 2 = (|(o.1 : ℝ)| / W) ^ 2 := by
            rw [div_pow, div_pow, sq_abs]
        _ ≤ (4 / min W H) ^ 2 :=
            pow_le_pow_left₀ (div_nonneg (abs_nonneg _) hW0.le) habs 2
    have hq2 : ((o.2 : ℝ) / H) ^ 2 ≤ (4 / min W H) ^ 2 := by
      have habs : |(o.2 : ℝ)| / H ≤ 4 / min W H :=
        le_trans ((div_le_div_iff_of_pos_right hH0).mpr ha2)
          (div_le_div_of_nonneg_left (by norm_num) hm0 (min_le_right W H))
      calc ((o.2 : ℝ) / H) ^ 2 = (|(o.2 : ℝ)| / H) ^ 2 := by
            rw [div_pow, div_pow, sq_abs]
        _ ≤ (4 / min W H) ^ 2 :=
            pow_le_pow_left₀ (div_nonneg (abs_nonneg _) hH0.le) habs 2
    have hsq : (Real.sqrt 32 / min W H) ^ 2 =
        (4 / min W H) ^ 2 + (4 / min W H) ^ 2 := by
      rw [div_pow, div_pow, Real.sq_sqrt (by norm_num : (0:ℝ) ≤ 32)]
      ring
    calc offsetDist W H o
        = Real.sqrt (((o.1 : ℝ) / W) ^ 2 + ((o.2 : ℝ) / H) ^ 2) := rfl
      _ ≤ Real.sqrt ((Real.sqrt 32 / min W H) ^ 2) :=
          Real.sqrt_le_sqrt (by rw [hsq]; linarith)
      _ = Real.sqrt 32 / min W H := Real.sqrt_sq (by positivity)
  · have h6 : Real.sqrt 32 < 6 :=
      (Real.sqrt_lt' (by norm_num)).mpr (by norm_num)
    rw [div_lt_one hm0]
    linarith

/-- When every scanned offset lands in the inner ring, the fold leaves the
outer accumulator fields untouched. -/
lemma foldl_outer_fixed (p : Params) (W H : ℝ) (S : ℝ → ℝ → ℝ) (sx sy : ℝ) :
    ∀ l : List (ℤ × ℤ), (∀ o ∈ l, offsetDist W H o ≤ p.R1) →
      ∀ acc : RingAcc,
        (l.foldl (loopStep p W H S sx sy) acc).outerState = acc.outerState ∧
        (l.foldl (loopStep p W H S sx sy) acc).outerWeight = acc.outerWeight := by
  intro l
  induction l with
  | nil => intro _ acc; exact ⟨rfl, rfl⟩
  | cons o t ih =>
    intro hl acc
    have ho : offsetDist W H o ≤ p.R1 := hl o (List.mem_cons_self _ _)
    have ht : ∀ o' ∈ t, offsetDist W H o' ≤ p.R1 :=
      fun o' h' => hl o' (List.mem_cons_of_mem _ h')
    have hstep : (loopStep p W H S sx sy acc o).outerState = acc.outerState ∧
        (loopStep p W H S sx sy acc o).outerWeight = acc.outerWeight := by
      unfold loopStep
      rw [if_pos ho]
      exact ⟨rfl, rfl⟩
    have := ih ht (loopStep p W H S sx sy acc o)
    exact ⟨hstep.1 ▸ this.1, hstep.2 ▸ this.2⟩

/-- C3: with the code's constants R1 = 1.0 and R2 = 4.0, for every
resolution with min(W, H) ≥ 6 every offset (dx, dy) in [-4, 4]^2 has
normalized distance at most sqrt(32)/min(W, H) < R1, so every offset
accumulates into the inner ring: the outer accumulator ends at 0, the
normalized outer state is 0, and neighborState = innerState/2 for every
input surface and cell. -/
theorem C3_all_offsets_inner (W H : ℝ) (hmin : 6 ≤ min W H) :
    (∀ o ∈ offsets mainParams.R2,
        offsetDist W H o ≤ Real.sqrt 32 / min W H) ∧
    Real.sqrt 32 / min W H < mainParams.R1 ∧
    ∀ (S : ℝ → ℝ → ℝ) (sx sy : ℝ),
      (kernelAcc mainParams W H S sx sy).outerWeight = 0 ∧
      (kernelAcc mainParams W H S sx sy).outerState = 0 ∧
      outerStateNorm mainParams W H S sx sy = 0 ∧
      neighborState mainParams W H S sx sy =
        innerStateNorm mainParams W H S sx sy / 2 := by
  obtain ⟨hd, hlt⟩ := offsetDist_bound_of_min6 W H hmin
  have hR1 : ∀ o ∈ offsets mainParams.R2, offsetDist W H o ≤ mainParams.R1 := by
    intro o ho
    have h1 : offsetDist W H o ≤ Real.sqrt 32 / min W H := hd o ho
    show offsetDist W H o ≤ (1 : ℝ)
    linarith
  refine ⟨hd, hlt, ?_⟩
  intro S sx sy
  have hout := foldl_outer_fixed mainParams W H S sx sy
    (offsets mainParams.R2) hR1 ⟨0, 0, 0, 0⟩
  have hos : (kernelAcc mainParams W H S sx sy).outerState = 0 := hout.1
  have how : (kernelAcc mainParams W H S sx sy).outerWeight = 0 := hout.2
  have hnorm : outerStateNorm mainParams W H S sx sy = 0 := by
    unfold outerStateNorm
    rw [how, hos]
    simp
  refine ⟨how, hos, hnorm, ?_⟩
  unfold neighborState glslMix
  rw [hnorm]
  norm_num
  ring

/-- Witness for C3 at resolution 100x100 on the all-zero surface. -/
theorem C3_all_offsets_inner_witness :
    (6 : ℝ) ≤ min 100 100 ∧
    neighborState mainParams 100 100 (fun _ _ => 0) 0 0 =
      innerStateNorm mainParams 100 100 (fun _ _ => 0) 0 0 / 2 := by
  have h : (6 : ℝ) ≤ min 100 100 := by norm_num
  exact ⟨h, ((C3_all_offsets_inner 100 100 h).2.2 (fun _ _ => 0) 0 0).2.2.2⟩

/-- Scanning the all-one surface keeps each weighted sum equal to its ring
weight: every accumulated sample is `1 * weight`. -/
lemma kernelAcc_ones_states (p : Params) (W H sx sy : ℝ) :
    (kernelAcc p W H (fun _ _ => 1) sx sy).innerState =
      (kernelAcc p W H (fun _ _ => 1) sx sy).innerWeight ∧
    (kernelAcc p W H (fun _ _ => 1) sx sy).outerState =
      (kernelAcc p W H (fun _ _ => 1) sx sy).outerWeight := by
  refine foldl_preserves (loopStep p W H (fun _ _ => 1) sx sy)
    (fun acc => acc.innerState = acc.innerWeight ∧
      acc.outerState = acc.outerWeight)
    (offsets p.R2) ?_ _ ⟨rfl, rfl⟩
  intro acc o _ h
  unfold loopStep
  split_ifs
  · exact ⟨by simp [h.1], h.2⟩
  · exact ⟨h.1, by simp [h.2]⟩
  · exact h

/-- Each loop iteration can only increase the inner weight. -/
lemma loopStep_innerWeight_le (p : Params) (W H : ℝ) (S : ℝ → ℝ → ℝ)
    (sx sy : ℝ) (acc : RingAcc) (o : ℤ × ℤ) :
    acc.innerWeight ≤ (loopStep p W H S sx sy acc o).innerWeight := by
  have hw := (Real.exp_pos (-offsetDist W H o * weightFactor)).le
  unfold loopStep
  split_ifs
  · dsimp only
    linarith
  · exact le_refl _
  · exact le_refl _

/-- The inner weight of the fold never decreases. -/
lemma foldl_innerWeight_mono (p : Params) (W H : ℝ) (S : ℝ → ℝ → ℝ)
    (sx sy : ℝ) :
    ∀ (l : List (ℤ × ℤ)) (acc : RingAcc),
      acc.innerWeight ≤ (l.foldl (loopStep p W H S sx sy) acc).innerWeight := by
  intro l
  induction l with
  | nil => intro acc; exact le_refl _
  | cons o t ih =>
    intro acc
    exact le_trans (loopStep_innerWeight_le p W H S sx sy acc o) (ih _)

/-- If some scanned offset lies in the inner ring, the fold ends with a
strictly positive inner weight. -/
lemma foldl_innerWeight_pos (p : Params) (W H : ℝ) (S : ℝ → ℝ → ℝ)
    (sx sy : ℝ) :
    ∀ (l : List (ℤ × ℤ)) (o : ℤ × ℤ), o ∈ l → offsetDist W H o ≤ p.R1 →
      ∀ acc : RingAcc, 0 ≤ acc.innerWeight →
        0 < (l.foldl (loopStep p W H S sx sy) acc).innerWeight := by
  intro l
  induction l with
  | nil => intro o ho; exact absurd ho (List.not_mem_nil o)
  | cons o' t ih =>
    intro o ho hd acc hacc
    rcases List.mem_cons.mp ho with h | h
    · subst h
      have hpos : 0 < (loopStep p W H S sx sy acc o).innerWeight := by
        unfold loopStep
        rw [if_pos hd]
        dsimp only
        have := Real.exp_pos (-offsetDist W H o * weightFactor)
        linarith
      exact lt_of_lt_of_le hpos (foldl_innerWeight_mono p W H S sx sy t _)
    · exact ih o h hd _
        (le_trans hacc (loopStep_innerWeight_le p W H S sx sy acc o'))

/-- On the all-one surface the normalized inner state is 1 whenever any
offset was accumulated into the inner ring, and the normalized outer state
is either 0 (empty outer ring) or 1. -/
lemma ones_stateNorm (p : Params) (W H sx sy : ℝ)
    (hiw : 0 < (kernelAcc p W H (fun _ _ => 1) sx sy).innerWeight) :
    innerStateNorm p W H (fun _ _ => 1) sx sy = 1 ∧
    (outerStateNorm p W H (fun _ _ => 1) sx sy = 0 ∨
      outerStateNorm p W H (fun _ _ => 1) sx sy = 1) := by
  have hst := kernelAcc_ones_states p W H sx sy
  have hinv := kernelAcc_weight_inv p W H (fun _ _ => 1) sx sy
  constructor
  · unfold innerStateNorm
    rw [if_pos hiw, hst.1]
    exact div_self (ne_of_gt hiw)
  · unfold outerStateNorm
    split_ifs with how
    · right
      rw [hst.2]
      exact div_self (ne_of_gt how)
    · left
      rw [hst.2]
      exact le_antisymm (not_lt.mp how) hinv.2.2.1

/-- C6 (amended): on the all-one surface with the main.ts parameters
(R1=1.0, R2=4.0, B1=0.23, B2=0.336, D1=0.477, D2=0.5), one kernel
application yields 0 at every cell, for every resolution with W, H > 0:
the inner ring always contains the offset (0, 0), so the normalized inner
state is 1; neighborState is 1 when the outer ring is nonempty and 1/2 when
it is empty, in both cases at least D2 = 0.5, so
death = smoothstep(0.477, 0.5, neighborState) = 1 and the birth term is
multiplied by (1 - current) = 0. -/
theorem C6_all_alive_collapse (W H : ℝ) (_hW : 0 < W) (_hH : 0 < H)
    (t sx sy : ℝ) :
    kernelNext mainParams W H (fun _ _ => 1) t sx sy = 0 ∧
    (neighborState mainParams W H (fun _ _ => 1) sx sy = 1 / 2 ∨
      neighborState mainParams W H (fun _ _ => 1) sx sy = 1) ∧
    smoothstepRange mainParams.D1 mainParams.D2
      (neighborState mainParams W H (fun _ _ => 1) sx sy) = 1 := by
  have hzero : offsetDist W H ((0, 0) : ℤ × ℤ) = 0 := by
    simp [offsetDist]
  have hmem : ((0, 0) : ℤ × ℤ) ∈ offsets mainParams.R2 := by decide
  have hd : offsetDist W H ((0, 0) : ℤ × ℤ) ≤ mainParams.R1 := by
    rw [hzero]
    norm_num [mainParams]
  have hiw : 0 < (kernelAcc mainParams W H (fun _ _ => 1) sx sy).innerWeight :=
    foldl_innerWeight_pos mainParams W H (fun _ _ => 1) sx sy
      (offsets mainParams.R2) (0, 0) hmem hd ⟨0, 0, 0, 0⟩ (le_refl 0)
  obtain ⟨hin, hout⟩ := ones_stateNorm mainParams W H sx sy hiw
  have hns : neighborState mainParams W H (fun _ _ => 1) sx sy = 1 / 2 ∨
      neighborState mainParams W H (fun _ _ => 1) sx sy = 1 := by
    unfold neighborState glslMix
    rw [hin]
    rcases hout with h | h
    · left
      rw [h]
      norm_num
    · right
      rw [h]
      norm_num
  have hdeath : smoothstepRange mainParams.D1 mainParams.D2
      (neighborState mainParams W H (fun _ _ => 1) sx sy) = 1 := by
    unfold smoothstepRange
    rcases hns with h | h <;> rw [h] <;>
      exact smoothstep_of_ge (by norm_num [mainParams]) (by norm_num [mainParams])
  refine ⟨?_, hns, hdeath⟩
  simp only [kernelNext]
  rw [hdeath]
  ring

/-- Witness for C6 at resolution 100x100, cell (0.5, 0.5). -/
theorem C6_all_alive_collapse_witness :
    (0 : ℝ) < 100 ∧
    kernelNext mainParams 100 100 (fun _ _ => 1) 0 0.5 0.5 = 0 :=
  ⟨by norm_num,
    (C6_all_alive_collapse 100 100 (by norm_num) (by norm_num) 0 0.5 0.5).1⟩

/-- Counterexample for C6 as stated: at resolution 100x100 with all cells
1.0 the outer ring is empty (every offset has normalized distance below
R1 = 1), so neighborState = 1/2, not 1 as the claim asserts. -/
theorem C6_neighbor_state_counterexample :
    neighborState mainParams 100 100 (fun _ _ => 1) 0.5 0.5 = 1 / 2 ∧
    (1 / 2 : ℝ) ≠ 1 := by
  refine ⟨?_, by norm_num⟩
  obtain ⟨hd, hlt⟩ := offsetDist_bound_of_min6 100 100 (by norm_num)
  have hR1 : ∀ o ∈ offsets mainParams.R2,
      offsetDist 100 100 o ≤ mainParams.R1 := by
    intro o ho
    have h1 := hd o ho
    show offsetDist 100 100 o ≤ (1 : ℝ)
    linarith
  have hout := foldl_outer_fixed mainParams 100 100 (fun _ _ => 1) 0.5 0.5
    (offsets mainParams.R2) hR1 ⟨0, 0, 0, 0⟩
  have hos : (kernelAcc mainParams 100 100 (fun _ _ => 1) 0.5 0.5).outerState = 0 :=
    hout.1
  have how : (kernelAcc mainParams 100 100 (fun _ _ => 1) 0.5 0.5).outerWeight = 0 :=
    hout.2
  have hmem : ((0, 0) : ℤ × ℤ) ∈ offsets mainParams.R2 := by decide
  have hdz : offsetDist 100 100 ((0, 0) : ℤ × ℤ) ≤ mainParams.R1 :=
    hR1 _ hmem
  have hiw : 0 < (kernelAcc mainParams 100 100 (fun _ _ => 1) 0.5 0.5).innerWeight :=
    foldl_innerWeight_pos mainParams 100 100 (fun _ _ => 1) 0.5 0.5
      (offsets mainParams.R2) (0, 0) hmem hdz ⟨0, 0, 0, 0⟩ (le_refl 0)
  obtain ⟨hin, _⟩ := ones_stateNorm mainParams 100 100 0.5 0.5 hiw
  have hosn : outerStateNorm mainParams 100 100 (fun _ _ => 1) 0.5 0.5 = 0 := by
    unfold outerStateNorm
    rw [how, hos]
    simp
  unfold neighborState glslMix
  rw [hin, hosn]
  norm_num

/-- Seed value of the two-disk initializer (`createInitialStateTexture`,
main.ts lines 139-166) at pixel (x, y) of a width x height grid, expressed
as the normalized red-channel value the shader later samples: the code
stores byte 255 (sampled as 1.0) when the pixel-center distance to either
disk center `(2W/5, H/2)` or `(3W/5, H/2)` is strictly below the radius
`min(W, H)/6`, and byte 0 (sampled as 0.0) otherwise. -/
noncomputable def seedValue (width height : ℤ) (x y : ℤ) : ℝ :=
  if Real.sqrt (((x : ℝ) - 2 * (width : ℝ) / 5) * ((x : ℝ) - 2 * (width : ℝ) / 5) +
        ((y : ℝ) - (height : ℝ) / 2) * ((y : ℝ) - (height : ℝ) / 2)) <
      min (width : ℝ) (height : ℝ) / 6 ∨
    Real.sqrt (((x : ℝ) - 3 * (width : ℝ) / 5) * ((x : ℝ) - 3 * (width : ℝ) / 5) +
        ((y : ℝ) - (height : ℝ) / 2) * ((y : ℝ) - (height : ℝ) / 2)) <
      min (width : ℝ) (height : ℝ) / 6
  then 1 else 0

/-- A seeded grid: the requested dimensions plus the per-pixel cell value. -/
structure SeedGrid where
  width : ℤ
  height : ℤ
  cell : ℤ → ℤ → ℝ

/-- The host-side initializer `createInitialStateTexture(gl, width, height)`
(main.ts lines 139-186).  Its first action is
`new Uint8Array(width * height * 4)`, which in JavaScript throws a
RangeError exactly when the requested length is negative; the function
performs no other validation of `width` or `height`.  When the allocation
succeeds, the fill loops write the two-disk seed pattern. -/
noncomputable def createInitialStateTexture (width height : ℤ) :
    Except String SeedGrid :=
  if width * height * 4 < 0 then
    Except.error "RangeError: invalid typed array length"
  else
    Except.ok ⟨width, height, fun x y => seedValue width height x y⟩

/-- Decides whether the initializer rejected its input. -/
def isError : Except String SeedGrid → Bool
  | Except.error _ => true
  | Except.ok _ => false

/-- C4: for positive dimensions the Initializer's grid holds 1.0 exactly at
the pixels whose center lies strictly within radius min(W, H)/6 of either
disk center (2W/5, H/2) or (3W/5, H/2) — stated with squared distances,
eliminating the square root of the code — and 0.0 everywhere else;
specialised to W = H = 100 the live set is exactly the pixels within
distance 50/3 of (40, 50) or (60, 50). -/
theorem C4_two_disk_seed :
    (∀ width height : ℤ, 0 < width → 0 < height → ∀ x y : ℤ,
      seedValue width height x y =
        if ((x : ℝ) - 2 * (width : ℝ) / 5) ^ 2 +
              ((y : ℝ) - (height : ℝ) / 2) ^ 2 <
              (min (width : ℝ) (height : ℝ) / 6) ^ 2 ∨
            ((x : ℝ) - 3 * (width : ℝ) / 5) ^ 2 +
              ((y : ℝ) - (height : ℝ) / 2) ^ 2 <
              (min (width : ℝ) (height : ℝ) / 6) ^ 2
        then 1 else 0) ∧
    (∀ x y : ℤ,
      seedValue 100 100 x y =
        if ((x : ℝ) - 40) ^ 2 + ((y : ℝ) - 50) ^ 2 < (50 / 3) ^ 2 ∨
            ((x : ℝ) - 60) ^ 2 + ((y : ℝ) - 50) ^ 2 < (50 / 3) ^ 2
        then 1 else 0) := by
  have hgen : ∀ width height : ℤ, 0 < width → 0 < height → ∀ x y : ℤ,
      seedValue width height x y =
        if ((x : ℝ) - 2 * (width : ℝ) / 5) ^ 2 +
              ((y : ℝ) - (height : ℝ) / 2) ^ 2 <
              (min (width : ℝ) (height : ℝ) / 6) ^ 2 ∨
            ((x : ℝ) - 3 * (width : ℝ) / 5) ^ 2 +
              ((y : ℝ) - (height : ℝ) / 2) ^ 2 <
              (min (width : ℝ) (height : ℝ) / 6) ^ 2
        then 1 else 0 := by
    intro width height hw hh x y
    have hw' : (0 : ℝ) < (width : ℝ) := by exact_mod_cast hw
    have hh' : (0 : ℝ) < (height : ℝ) := by exact_mod_cast hh
    have hr : (0 : ℝ) < min (width : ℝ) (height : ℝ) / 6 := by
      have := lt_min hw' hh'
      linarith
    have hiff : ∀ a b : ℝ,
        (Real.sqrt (a * a + b * b) < min (width : ℝ) (height : ℝ) / 6 ↔
          a ^ 2 + b ^ 2 < (min (width : ℝ) (height : ℝ) / 6) ^ 2) := by
      intro a b
      rw [show a * a + b * b = a ^ 2 + b ^ 2 by ring]
      exact Real.sqrt_lt' hr
    unfold seedValue
    exact if_congr (or_congr (hiff _ _) (hiff _ _)) rfl rfl
  refine ⟨hgen, ?_⟩
  intro x y
  rw [hgen 100 100 (by norm_num) (by norm_num) x y]
  norm_num

/-- Witness for C4: at W = H = 100 the center pixel (40, 50) of the left
disk is live and the corner pixel (0, 0) is dead. -/
theorem C4_two_disk_seed_witness :
    (0 : ℤ) < 100 ∧ seedValue 100 100 40 50 = 1 ∧ seedValue 100 100 0 0 = 0 := by
  refine ⟨by norm_num, ?_, ?_⟩
  · rw [C4_two_disk_seed.1 100 100 (by norm_num) (by norm_num) 40 50]
    norm_num
  · rw [C4_two_disk_seed.1 100 100 (by norm_num) (by norm_num) 0 0]
    norm_num

/-- Counterexample for C10 as stated: width = 0 is a degenerate dimension
(width ≤ 0), yet the Initializer does not reject it: the typed-array length
0 * 10 * 4 = 0 is not negative, so allocation succeeds and a seeded grid is
returned instead of an error. -/
theorem C10_zero_width_not_rejected :
    ((0 : ℤ) ≤ 0 ∨ (10 : ℤ) ≤ 0) ∧
    isError (createInitialStateTexture 0 10) = false := by
  refine ⟨Or.inl (le_refl 0), ?_⟩
  unfold createInitialStateTexture
  rw [if_neg (by norm_num : ¬((0 : ℤ) * 10 * 4 < 0))]
  rfl

/-- C10 (amended): the Initializer performs no dimension validation of its
own; construction fails exactly when width * height < 0 (one dimension
strictly negative and the other strictly positive), because only then is
the typed-array length negative and the allocation throws.  A zero width or
height, or two negative dimensions, are accepted and produce a degenerate
seeded grid, so inputs with width ≤ 0 or height ≤ 0 are not rejected in
general, and the rejection that does happen occurs at the allocation
itself, not before it. -/
theorem C10_rejection_iff_negative_area (width height : ℤ) :
    isError (createInitialStateTexture width height) = true ↔
      width * height < 0 := by
  unfold createInitialStateTexture
  split_ifs with h
  · simp only [isError]
    constructor
    · intro _
      linarith
    · intro _
      trivial
  · simp only [isError]
    constructor
    · intro hfalse
      exact absurd hfalse (by simp)
    · intro hcon
      exact absurd (by linarith : width * height * 4 < 0) h

/-- Witness for the amended C10 at the concrete pair (-1, 5): a negative
typed-array length, so the allocation throws. -/
theorem C10_rejection_iff_negative_area_witness :
    (isError (createInitialStateTexture (-1) 5) = true ↔ (-1 : ℤ) * 5 < 0) ∧
    isError (createInitialStateTexture (-1) 5) = true := by
  have h := C10_rejection_iff_negative_area (-1) 5
  exact ⟨h, h.mpr (by norm_num)⟩
